import Mathlib

set_option maxRecDepth 4000000

/-!
Verification of the incremental-compilation core of the Move package tool:
the package digest (resolution/digest.rs, source_package/parsed_manifest.rs),
the two-tier module cache (compilation/module_cache.rs), and the mutator
command-line options (move-mutator/src/cli.rs).

Byte sequences are modelled as lists of natural numbers, filesystem paths as
lists of components (mirroring the component-wise ordering and suffix tests
of Rust paths), and the filesystem itself as explicit read/walk functions, so
that every operation below is an executable Lean function.
-/

/-! ## SHA-256

The digest code hashes file contents with the external sha2 crate.  The hash
function itself is embedded here in full so that all digest computations are
concrete: bytes are naturals below 256 and words are naturals reduced
modulo two to the thirty-second power.
-/

/-- Truncation of a natural number to a 32-bit word. -/
def w32 (n : Nat) : Nat := n % 4294967296

/-- Right rotation of a 32-bit word by a given amount. -/
def rotr32 (x n : Nat) : Nat := w32 ((x >>> n) ||| (x <<< (32 - n)))

/-- Choice function of the SHA-256 compression loop. -/
def shaCh (e f g : Nat) : Nat := (e &&& f) ^^^ ((4294967295 - e) &&& g)

/-- Majority function of the SHA-256 compression loop. -/
def shaMaj (a b c : Nat) : Nat := (a &&& b) ^^^ (a &&& c) ^^^ (b &&& c)

/-- Big sigma-0 of SHA-256. -/
def shaS0 (a : Nat) : Nat := rotr32 a 2 ^^^ rotr32 a 13 ^^^ rotr32 a 22

/-- Big sigma-1 of SHA-256. -/
def shaS1 (e : Nat) : Nat := rotr32 e 6 ^^^ rotr32 e 11 ^^^ rotr32 e 25

/-- Small sigma-0 of the SHA-256 message schedule. -/
def shas0 (x : Nat) : Nat := rotr32 x 7 ^^^ rotr32 x 18 ^^^ (x >>> 3)

/-- Small sigma-1 of the SHA-256 message schedule. -/
def shas1 (x : Nat) : Nat := rotr32 x 17 ^^^ rotr32 x 19 ^^^ (x >>> 10)

/-- Round constants of SHA-256 (FIPS 180-4), written in decimal. -/
def shaK : List Nat :=
  [1116352408, 1899447441, 3049323471, 3921009573, 961987163,
   1508970993, 2453635748, 2870763221, 3624381080, 310598401,
   607225278, 1426881987, 1925078388, 2162078206, 2614888103,
   3248222580, 3835390401, 4022224774, 264347078, 604807628,
   770255983, 1249150122, 1555081692, 1996064986, 2554220882,
   2821834349, 2952996808, 3210313671, 3336571891, 3584528711,
   113926993, 338241895, 666307205, 773529912, 1294757372,
   1396182291, 1695183700, 1986661051, 2177026350, 2456956037,
   2730485921, 2820302411, 3259730800, 3345764771, 3516065817,
   3600352804, 4094571909, 275423344, 430227734, 506948616,
   659060556, 883997877, 958139571, 1322822218, 1537002063,
   1747873779, 1955562222, 2024104815, 2227730452, 2361852424,
   2428436474, 2756734187, 3204031479, 3329325298]

/-- Working state of the SHA-256 compression function. -/
structure ShaSt where
  a : Nat
  b : Nat
  c : Nat
  d : Nat
  e : Nat
  f : Nat
  g : Nat
  h : Nat

/-- Initial hash values of SHA-256 (FIPS 180-4), written in decimal. -/
def shaH0 : ShaSt :=
  ⟨1779033703, 3144134277, 1013904242, 2773480762,
   1359893119, 2600822924, 528734635, 1541459225⟩

/-- Padding of a byte message per SHA-256: append the byte 128, zeros up to
fifty-six bytes modulo sixty-four, and the bit length as eight big-endian
bytes. -/
def shaPad (msg : List Nat) : List Nat :=
  let len := msg.length
  let bitLen := len * 8
  let zeros := (64 + 55 - len % 64) % 64
  msg ++ [0x80] ++ List.replicate zeros 0 ++
    [(bitLen >>> 56) % 256, (bitLen >>> 48) % 256, (bitLen >>> 40) % 256, (bitLen >>> 32) % 256,
     (bitLen >>> 24) % 256, (bitLen >>> 16) % 256, (bitLen >>> 8) % 256, bitLen % 256]

/-- Splitting into 64-byte blocks, fuelled so that reduction is structural. -/
def chunk64Aux : Nat → List Nat → List (List Nat)
  | 0, _ => []
  | _, [] => []
  | fuel + 1, x :: l => ((x :: l).take 64) :: chunk64Aux fuel ((x :: l).drop 64)

/-- Splitting a padded message into 64-byte blocks. -/
def chunk64 (l : List Nat) : List (List Nat) := chunk64Aux l.length l

/-- Grouping of bytes into big-endian 32-bit words. -/
def toWordsBE : List Nat → List Nat
  | b0 :: b1 :: b2 :: b3 :: rest => (b0 <<< 24 ||| b1 <<< 16 ||| b2 <<< 8 ||| b3) :: toWordsBE rest
  | _ => []

/-- Extension of the 16-word block to the 64-word message schedule. -/
def shaExtend (ws : List Nat) : List Nat :=
  (List.range 48).foldl (fun ws _ =>
    let n := ws.length
    ws ++ [w32 (shas1 (ws.getD (n - 2) 0) + ws.getD (n - 7) 0 +
                shas0 (ws.getD (n - 15) 0) + ws.getD (n - 16) 0)]) ws

/-- One round of the SHA-256 compression function. -/
def shaRound (st : ShaSt) (wk : Nat × Nat) : ShaSt :=
  let t1 := w32 (st.h + shaS1 st.e + shaCh st.e st.f st.g + wk.2 + wk.1)
  let t2 := w32 (shaS0 st.a + shaMaj st.a st.b st.c)
  ⟨w32 (t1 + t2), st.a, st.b, st.c, w32 (st.d + t1), st.e, st.f, st.g⟩

/-- Processing of one 64-byte block. -/
def shaBlock (st : ShaSt) (block : List Nat) : ShaSt :=
  let ws := shaExtend (toWordsBE block)
  let r := (ws.zip shaK).foldl shaRound st
  ⟨w32 (st.a + r.a), w32 (st.b + r.b), w32 (st.c + r.c), w32 (st.d + r.d),
   w32 (st.e + r.e), w32 (st.f + r.f), w32 (st.g + r.g), w32 (st.h + r.h)⟩

/-- Big-endian bytes of a 32-bit word. -/
def wordBytesBE (x : Nat) : List Nat := [(x >>> 24) % 256, (x >>> 16) % 256, (x >>> 8) % 256, x % 256]

/-- SHA-256 digest of a byte list, as 32 bytes. -/
def sha256 (msg : List Nat) : List Nat :=
  let st := (chunk64 (shaPad msg)).foldl shaBlock shaH0
  wordBytesBE st.a ++ wordBytesBE st.b ++ wordBytesBE st.c ++ wordBytesBE st.d ++
  wordBytesBE st.e ++ wordBytesBE st.f ++ wordBytesBE st.g ++ wordBytesBE st.h

/-- Uppercase hexadecimal digit. -/
def hexDigitU (n : Nat) : Char :=
  if n = 0 then '0' else if n = 1 then '1' else if n = 2 then '2' else if n = 3 then '3'
  else if n = 4 then '4' else if n = 5 then '5' else if n = 6 then '6' else if n = 7 then '7'
  else if n = 8 then '8' else if n = 9 then '9' else if n = 10 then 'A' else if n = 11 then 'B'
  else if n = 12 then 'C' else if n = 13 then 'D' else if n = 14 then 'E' else 'F'

/-- Uppercase hexadecimal rendering of a byte list, as produced by the
upper-hex format specifier applied to a sha2 digest value. -/
def hexUpper (bytes : List Nat) : String :=
  String.mk (bytes.flatMap (fun b => [hexDigitU (b / 16 % 16), hexDigitU (b % 16)]))

/-- Bytes of a string as fed to the hasher; digest strings are ASCII so the
character codes coincide with the UTF-8 bytes. -/
def strBytes (s : String) : List Nat := s.data.map Char.toNat

/-! ## Paths

Rust paths compare and match suffixes component-wise; the embedding uses the
component list directly, ordered lexicographically. -/

/-- Filesystem path, as its list of components. -/
abbrev PathBuf := List String

/-- Comparison key of one component: its character codes.  Rust compares
components as raw bytes; on the components in play these agree with the
character codes. -/
def strKey (s : String) : List Nat := s.data.map Char.toNat

/-- Comparison key of a path: the component keys.  Rust orders paths
lexicographically component-wise; the keys are compared by the
lexicographic order on lists. -/
def pathKey (p : PathBuf) : List (List Nat) := p.map strKey

theorem strKey_inj : Function.Injective strKey := by
  intro s t h
  exact String.ext (List.map_injective_iff.mpr
    (fun a b hab => Char.eq_of_val_eq (UInt32.ext hab)) h)

theorem pathKey_inj : Function.Injective pathKey :=
  List.map_injective_iff.mpr strKey_inj

theorem pathKey_ne {p q : PathBuf} (h : p ≠ q) : pathKey p ≠ pathKey q :=
  fun he => h (pathKey_inj he)


/-! ## Ordered map keyed by path

The Rust code stores per-file digests in a std BTreeMap keyed by PathBuf.
The map is embedded as an association list strictly sorted by key, which is
exactly the iteration order of the BTreeMap. -/

/-- Entries strictly ascending by key. -/
def keysSortedLt (l : List (PathBuf × String)) : Prop :=
  List.Pairwise (fun a b => pathKey a.1 < pathKey b.1) l

instance (l : List (PathBuf × String)) : Decidable (keysSortedLt l) :=
  inferInstanceAs (Decidable (List.Pairwise _ l))

/-- Map from path to digest string, as a strictly sorted association list;
the model of the std BTreeMap used for per-file digests. -/
structure FileDigestMap where
  entries : List (PathBuf × String)
  wf : keysSortedLt entries
deriving DecidableEq

/-- Empty file-digest map. -/
def FileDigestMap.empty : FileDigestMap := ⟨[], List.Pairwise.nil⟩

/-- Lookup of a key in an association list, first match. -/
def entriesGet : List (PathBuf × String) → PathBuf → Option String
  | [], _ => none
  | (q, w) :: t, p => if p = q then some w else entriesGet t p

/-- Sorted insert-or-replace into an association list, maintaining the
strictly ascending key order of the BTreeMap. -/
def entriesInsert : List (PathBuf × String) → PathBuf → String → List (PathBuf × String)
  | [], p, v => [(p, v)]
  | (q, w) :: t, p, v =>
    if pathKey p < pathKey q then (p, v) :: (q, w) :: t
    else if p = q then (p, v) :: t
    else (q, w) :: entriesInsert t p v

theorem entriesInsert_mem_key {l : List (PathBuf × String)} {p : PathBuf} {v : String}
    {x : PathBuf × String} (hx : x ∈ entriesInsert l p v) : x.1 = p ∨ x ∈ l := by
  induction l with
  | nil =>
    simp [entriesInsert] at hx
    exact Or.inl (by simp [hx])
  | cons a t ih =>
    obtain ⟨q, w⟩ := a
    simp only [entriesInsert] at hx
    by_cases h1 : pathKey p < pathKey q
    · rw [if_pos h1] at hx
      rcases List.mem_cons.mp hx with he | hm
      · exact Or.inl (by simp [he])
      · exact Or.inr hm
    · by_cases h2 : p = q
      · rw [if_neg h1, if_pos h2] at hx
        rcases List.mem_cons.mp hx with he | hm
        · exact Or.inl (by simp [he])
        · exact Or.inr (List.mem_cons_of_mem _ hm)
      · rw [if_neg h1, if_neg h2] at hx
        rcases List.mem_cons.mp hx with he | hm
        · exact Or.inr (by simp [he])
        · rcases ih hm with h3 | h3
          · exact Or.inl h3
          · exact Or.inr (List.mem_cons_of_mem _ h3)

theorem entriesInsert_sorted {l : List (PathBuf × String)} (hl : keysSortedLt l)
    (p : PathBuf) (v : String) : keysSortedLt (entriesInsert l p v) := by
  unfold keysSortedLt at hl ⊢
  induction l with
  | nil => simp [entriesInsert]
  | cons a t ih =>
    rcases hl with _ | ⟨ha, ht⟩
    obtain ⟨q, w⟩ := a
    simp only [entriesInsert]
    by_cases h1 : pathKey p < pathKey q
    · rw [if_pos h1]
      refine List.Pairwise.cons ?_ (List.Pairwise.cons ha ht)
      intro b hb
      rcases List.mem_cons.mp hb with he | hm
      · rw [he]
        exact h1
      · exact lt_trans h1 (ha b hm)
    · by_cases h2 : p = q
      · rw [if_neg h1, if_pos h2]
        refine List.Pairwise.cons ?_ ht
        intro b hb
        rw [h2]
        exact ha b hb
      · rw [if_neg h1, if_neg h2]
        refine List.Pairwise.cons ?_ (ih ht)
        intro b hb
        rcases entriesInsert_mem_key hb with h3 | h3
        · rw [h3]
          rcases lt_trichotomy (pathKey p) (pathKey q) with h | h | h
          · exact absurd h h1
          · exact absurd (pathKey_inj h) h2
          · exact h
        · exact ha b h3

/-- Lookup in the file-digest map. -/
def FileDigestMap.get (m : FileDigestMap) (p : PathBuf) : Option String :=
  entriesGet m.entries p

/-- Insert-or-replace in the file-digest map. -/
def FileDigestMap.insert (m : FileDigestMap) (p : PathBuf) (v : String) : FileDigestMap :=
  ⟨entriesInsert m.entries p v, entriesInsert_sorted m.wf p v⟩

/-- Key membership in the file-digest map, as the contains test of the
BTreeMap. -/
def FileDigestMap.containsKey (m : FileDigestMap) (p : PathBuf) : Bool :=
  (m.entries.map Prod.fst).contains p

theorem entriesGet_insert (l : List (PathBuf × String)) (k p : PathBuf) (v : String) :
    entriesGet (entriesInsert l k v) p = if p = k then some v else entriesGet l p := by
  induction l with
  | nil => by_cases h : p = k <;> simp [entriesInsert, entriesGet, h]
  | cons a t ih =>
    obtain ⟨q, w⟩ := a
    simp only [entriesInsert]
    by_cases h1 : pathKey k < pathKey q
    · rw [if_pos h1]
      by_cases h : p = k <;> simp [entriesGet, h]
    · by_cases h2 : k = q
      · rw [if_neg h1, if_pos h2]
        by_cases h : p = k
        · simp [entriesGet, h]
        · have hpq : ¬ p = q := fun he => h (he.trans h2.symm)
          simp [entriesGet, h, hpq]
      · rw [if_neg h1, if_neg h2]
        by_cases hpq : p = q
        · have h : ¬ p = k := fun he => h2 (he.symm.trans hpq)
          have hqk : ¬ q = k := fun he => h2 he.symm
          simp [entriesGet, hpq, h, hqk]
        · simp [entriesGet, hpq, ih]

theorem entriesGet_of_sorted_mem {l : List (PathBuf × String)} (hl : keysSortedLt l)
    {p : PathBuf} {v : String} (h : (p, v) ∈ l) : entriesGet l p = some v := by
  unfold keysSortedLt at hl
  induction l with
  | nil => simp at h
  | cons a t ih =>
    rcases hl with _ | ⟨ha, ht⟩
    rcases List.mem_cons.mp h with he | hm
    · rw [show a = (p, v) from he.symm]
      simp [entriesGet]
    · have hlt : pathKey a.1 < pathKey p := ha (p, v) hm
      have hne : ¬ p = a.1 := fun heq => absurd (heq ▸ hlt) (lt_irrefl _)
      have hstep : entriesGet (a :: t) p = entriesGet t p := by
        obtain ⟨q, w⟩ := a
        simp [entriesGet, hne]
      rw [hstep, ih ht hm]

/-- Package digest: the overall package hash plus the per-file digest map
(parsed_manifest.rs, struct PackageDigest).  The Symbol type of the hash
field is interned strings; it is embedded as String. -/
structure PackageDigest where
  package_hash : String
  file_digests : FileDigestMap
deriving DecidableEq

/-- Constructor PackageDigest::new. -/
def PackageDigest.new (package_hash : String) (file_digests : FileDigestMap) : PackageDigest :=
  ⟨package_hash, file_digests⟩

/-- Conversion from a bare hash string (impl From of str for PackageDigest):
the hash is taken verbatim and the per-file map is left empty. -/
def PackageDigest.fromStr (hash_str : String) : PackageDigest :=
  ⟨hash_str, FileDigestMap.empty⟩

/-- Check whether a file changed relative to this digest
(PackageDigest::file_changed): present with equal hash means unchanged,
anything else means changed. -/
def PackageDigest.file_changed (d : PackageDigest) (path : PathBuf) (new_hash : String) : Bool :=
  match d.file_digests.get path with
  | some old_hash => decide (old_hash ≠ new_hash)
  | none => true

/-- List of changed files between this digest and another
(PackageDigest::get_changed_files): every path of the other digest that is
absent here or differs, then every path present here but absent there. -/
def PackageDigest.get_changed_files (d other : PackageDigest) : List PathBuf :=
  (other.file_digests.entries.filter (fun e => d.file_changed e.1 e.2)).map Prod.fst
    ++ (d.file_digests.entries.map Prod.fst).filter
        (fun p => !(other.file_digests.containsKey p))

/-! ## Package digest computation (resolution/digest.rs)

The filesystem is a view of three operations used by compute_digest: the
file test on a top-level path, the recursive symlink-following walk of a
directory (already filtered, as in the source, to its readable file
entries, in walk order), and reading a file's bytes, where none models an
unreadable file (an IoError). -/

/-- Filesystem view consumed by compute_digest. -/
structure FS where
  isFile : PathBuf → Bool
  walk : PathBuf → List PathBuf
  read : PathBuf → Option (List Nat)

/-- Manifest file name of the package layout. -/
def manifestFileName : String := "Move.toml"

/-- Manifest path used in the ends-with test of the eligibility check. -/
def manifestPath : PathBuf := [manifestFileName]

/-- Move source extension constant. -/
def MOVE_EXTENSION : String := "move"

/-- Characters after the last dot of a component, if any. -/
def afterLastDot : List Char → Option (List Char)
  | [] => none
  | c :: t =>
    match afterLastDot t with
    | some suf => some suf
    | none => if c = '.' then some t else none

/-- Extension of a path, with the Rust semantics: the portion of the final
component after its last dot, where a single leading dot does not count. -/
def pathExtension (p : PathBuf) : Option String :=
  match p.getLast? with
  | none => none
  | some comp =>
    match comp.data with
    | [] => none
    | c :: rest =>
      match afterLastDot (if c = '.' then rest else c :: rest) with
      | some suf => some (String.mk suf)
      | none => none

/-- Component-wise suffix test of Rust paths. -/
def pathEndsWith (tail p : PathBuf) : Bool := List.isSuffixOf tail p

/-- Eligibility filter of maybe_hash_file: extension equals move, or the
path ends with the manifest path. -/
def isEligibleFile (p : PathBuf) : Bool :=
  match pathExtension p with
  | some x => if MOVE_EXTENSION = x then true else pathEndsWith manifestPath p
  | none => pathEndsWith manifestPath p

/-- Accumulator of compute_digest: the per-file map plus the occurrence list
that is later sorted. -/
structure DigestSt where
  file_digests : FileDigestMap
  sorted_hashes : List (PathBuf × String)

/-- Closure hash_file of compute_digest: read the file, hash its bytes, and
record the hash under the path in both accumulators. -/
def hash_file (fs : FS) (st : DigestSt) (path : PathBuf) : Option DigestSt :=
  match fs.read path with
  | none => none
  | some contents =>
    let hash := hexUpper (sha256 contents)
    some ⟨st.file_digests.insert path hash, st.sorted_hashes ++ [(path, hash)]⟩

/-- Closure maybe_hash_file of compute_digest: hash when eligible, skip
otherwise. -/
def maybe_hash_file (fs : FS) (st : DigestSt) (path : PathBuf) : Option DigestSt :=
  if isEligibleFile path then hash_file fs st path else some st

/-- Per top-level path step of compute_digest: a file is offered directly,
anything else is walked and each file entry offered. -/
def processTopPath (fs : FS) (st : DigestSt) (path : PathBuf) : Option DigestSt :=
  if fs.isFile path then maybe_hash_file fs st path
  else (fs.walk path).foldlM (maybe_hash_file fs) st

/-- Ordered insert of the path-keyed sort of the occurrence list. -/
def sortByPathInsert (x : PathBuf × String) : List (PathBuf × String) → List (PathBuf × String)
  | [] => [x]
  | y :: t => if pathKey x.1 ≤ pathKey y.1 then x :: y :: t else y :: sortByPathInsert x t

/-- Sort of the occurrence list by path, the sort_by call of
compute_digest. -/
def sortByPath (l : List (PathBuf × String)) : List (PathBuf × String) :=
  l.foldr sortByPathInsert []

/-- Function compute_digest: hash every eligible file reachable from the
input paths, then hash the concatenation of the file hash strings in
ascending path order into the overall package hash. -/
def compute_digest (fs : FS) (paths : List PathBuf) : Option PackageDigest :=
  (paths.foldlM (processTopPath fs) ⟨FileDigestMap.empty, []⟩).map (fun st =>
    let sorted := sortByPath st.sorted_hashes
    let package_hash := hexUpper (sha256 ((sorted.map (fun e => strBytes e.2)).flatten))
    PackageDigest.new package_hash st.file_digests)

/-- Candidate files offered to maybe_hash_file, in traversal order. -/
def digestCandidates (fs : FS) (paths : List PathBuf) : List PathBuf :=
  paths.flatMap (fun p => if fs.isFile p then [p] else fs.walk p)

/-- Eligible files hashed by compute_digest, in traversal order, with one
occurrence per encounter. -/
def digestFiles (fs : FS) (paths : List PathBuf) : List PathBuf :=
  (digestCandidates fs paths).filter isEligibleFile

/-- Uppercase hex SHA-256 of a file's bytes, the digest stored per file. -/
def fileHashStr (fs : FS) (p : PathBuf) : String :=
  match fs.read p with
  | some b => hexUpper (sha256 b)
  | none => ""

/-! ## Characterization of compute_digest -/

@[simp] theorem FileDigestMap.entries_insert (m : FileDigestMap) (p : PathBuf) (v : String) :
    (m.insert p v).entries = entriesInsert m.entries p v := rfl

@[simp] theorem FileDigestMap.entries_empty : FileDigestMap.empty.entries = [] := rfl

theorem foldlM_maybe_filter (fs : FS) (l : List PathBuf) (st : DigestSt) :
    l.foldlM (maybe_hash_file fs) st = (l.filter isEligibleFile).foldlM (hash_file fs) st := by
  induction l generalizing st with
  | nil => rfl
  | cons p t ih =>
    by_cases h : isEligibleFile p
    · rw [List.filter_cons_of_pos h, List.foldlM_cons, List.foldlM_cons]
      simp only [maybe_hash_file, h, if_true]
      cases hF : hash_file fs st p with
      | none => rfl
      | some st1 => simp [ih]
    · rw [List.filter_cons_of_neg (by simp [h]), List.foldlM_cons]
      simp only [maybe_hash_file, h, if_false]
      simpa using ih st

theorem foldlM_processTop (fs : FS) (paths : List PathBuf) (st : DigestSt) :
    paths.foldlM (processTopPath fs) st = (digestCandidates fs paths).foldlM (maybe_hash_file fs) st := by
  induction paths generalizing st with
  | nil => rfl
  | cons p t ih =>
    rw [List.foldlM_cons]
    have hcand : digestCandidates fs (p :: t)
        = (if fs.isFile p then [p] else fs.walk p) ++ digestCandidates fs t := by
      simp [digestCandidates]
    rw [hcand, List.foldlM_append]
    by_cases h : fs.isFile p
    · simp only [processTopPath, h, if_true]
      cases hF : maybe_hash_file fs st p with
      | none => simp [List.foldlM_cons, hF]
      | some st1 => simp [List.foldlM_cons, hF, ih]
    · simp only [processTopPath, h, if_false]
      cases hW : (fs.walk p).foldlM (maybe_hash_file fs) st with
      | none => simp [hW]
      | some st1 => simp [hW, ih]

theorem foldlM_hash_run (fs : FS) (l : List PathBuf) (st : DigestSt)
    (hrd : ∀ p ∈ l, (fs.read p).isSome) :
    l.foldlM (hash_file fs) st =
      some ⟨l.foldl (fun m p => m.insert p (fileHashStr fs p)) st.file_digests,
            st.sorted_hashes ++ l.map (fun p => (p, fileHashStr fs p))⟩ := by
  induction l generalizing st with
  | nil => simp
  | cons p t ih =>
    obtain ⟨b, hb⟩ := Option.isSome_iff_exists.mp (hrd p (List.mem_cons_self p t))
    rw [List.foldlM_cons]
    have hFv : fileHashStr fs p = hexUpper (sha256 b) := by simp [fileHashStr, hb]
    have hH : hash_file fs st p =
        some ⟨st.file_digests.insert p (fileHashStr fs p),
              st.sorted_hashes ++ [(p, fileHashStr fs p)]⟩ := by
      simp [hash_file, hb, hFv]
    rw [hH]
    have hrd2 : ∀ q ∈ t, (fs.read q).isSome := fun q hq => hrd q (List.mem_cons_of_mem p hq)
    simp only [Option.bind_eq_bind, Option.some_bind]
    rw [ih _ hrd2]
    simp

theorem foldlM_hash_reads (fs : FS) (l : List PathBuf) (st st' : DigestSt)
    (h : l.foldlM (hash_file fs) st = some st') : ∀ p ∈ l, (fs.read p).isSome := by
  induction l generalizing st with
  | nil => simp
  | cons p t ih =>
    rw [List.foldlM_cons] at h
    cases hF : hash_file fs st p with
    | none => rw [hF] at h; simp at h
    | some st1 =>
      rw [hF] at h
      simp only [Option.bind_eq_bind, Option.some_bind] at h
      intro q hq
      rcases List.mem_cons.mp hq with he | hm
      · subst he
        cases hr : fs.read q with
        | none => rw [hash_file, hr] at hF; simp at hF
        | some b => simp [hr]
      · exact ih st1 h q hm

theorem entriesGet_foldl_insert (fs : FS) (l : List PathBuf) (m : FileDigestMap) (p : PathBuf) :
    entriesGet ((l.foldl (fun m q => m.insert q (fileHashStr fs q)) m).entries) p =
      if p ∈ l then some (fileHashStr fs p) else entriesGet m.entries p := by
  induction l generalizing m with
  | nil => simp
  | cons q t ih =>
    simp only [List.foldl_cons]
    rw [ih]
    by_cases hq : p ∈ t
    · simp [hq, List.mem_cons]
    · by_cases hpq : p = q
      · simp [hq, hpq, entriesGet_insert]
      · simp [hq, hpq, entriesGet_insert, List.mem_cons]

theorem entriesInsert_perm_of_not_mem {l : List (PathBuf × String)} {p : PathBuf} (v : String)
    (h : p ∉ l.map Prod.fst) : List.Perm (entriesInsert l p v) ((p, v) :: l) := by
  induction l with
  | nil => exact List.Perm.refl _
  | cons a t ih =>
    obtain ⟨q, w⟩ := a
    simp only [List.map_cons, List.mem_cons] at h
    push_neg at h
    simp only [entriesInsert]
    by_cases h1 : pathKey p < pathKey q
    · rw [if_pos h1]
    · rw [if_neg h1, if_neg h.1]
      exact (List.Perm.cons _ (ih h.2)).trans (List.Perm.swap _ _ _)

theorem foldl_insert_entries_perm (fs : FS) (l : List PathBuf) (m : FileDigestMap)
    (hnd : l.Nodup) (hdis : ∀ p ∈ l, p ∉ m.entries.map Prod.fst) :
    List.Perm ((l.foldl (fun m q => m.insert q (fileHashStr fs q)) m).entries)
      (l.map (fun p => (p, fileHashStr fs p)) ++ m.entries) := by
  induction l generalizing m with
  | nil => simp
  | cons p t ih =>
    obtain ⟨hp, hndt⟩ := List.nodup_cons.mp hnd
    simp only [List.foldl_cons, List.map_cons, List.cons_append]
    have hpm : p ∉ m.entries.map Prod.fst := hdis p (List.mem_cons_self p t)
    have hm1 : List.Perm (m.insert p (fileHashStr fs p)).entries
        ((p, fileHashStr fs p) :: m.entries) := entriesInsert_perm_of_not_mem _ hpm
    have hkeys : List.Perm ((m.insert p (fileHashStr fs p)).entries.map Prod.fst)
        (p :: m.entries.map Prod.fst) := by
      simpa using hm1.map Prod.fst
    have hdis1 : ∀ q ∈ t, q ∉ (m.insert p (fileHashStr fs p)).entries.map Prod.fst := by
      intro q hq hqmem
      rcases List.mem_cons.mp (hkeys.mem_iff.mp hqmem) with he | hmm
      · exact hp (he ▸ hq)
      · exact hdis q (List.mem_cons_of_mem p hq) hmm
    refine (ih (m.insert p (fileHashStr fs p)) hndt hdis1).trans ?_
    refine ((List.Perm.append_left _ hm1).trans ?_)
    exact List.perm_middle

theorem sortByPathInsert_perm (x : PathBuf × String) (l : List (PathBuf × String)) :
    List.Perm (sortByPathInsert x l) (x :: l) := by
  induction l with
  | nil => exact List.Perm.refl _
  | cons y t ih =>
    simp only [sortByPathInsert]
    by_cases h : pathKey x.1 ≤ pathKey y.1
    · rw [if_pos h]
    · rw [if_neg h]
      exact (List.Perm.cons _ ih).trans (List.Perm.swap _ _ _)

theorem sortByPath_perm (l : List (PathBuf × String)) : List.Perm (sortByPath l) l := by
  induction l with
  | nil => exact List.Perm.refl _
  | cons x t ih =>
    simp only [sortByPath, List.foldr_cons]
    exact (sortByPathInsert_perm x _).trans (List.Perm.cons _ ih)

theorem sortByPathInsert_sorted {l : List (PathBuf × String)}
    (hl : List.Pairwise (fun a b : PathBuf × String => pathKey a.1 ≤ pathKey b.1) l)
    (x : PathBuf × String) :
    List.Pairwise (fun a b : PathBuf × String => pathKey a.1 ≤ pathKey b.1)
      (sortByPathInsert x l) := by
  induction l with
  | nil => simp [sortByPathInsert]
  | cons y t ih =>
    rcases hl with _ | ⟨hy, ht⟩
    simp only [sortByPathInsert]
    by_cases h : pathKey x.1 ≤ pathKey y.1
    · rw [if_pos h]
      refine List.Pairwise.cons ?_ (List.Pairwise.cons hy ht)
      intro b hb
      rcases List.mem_cons.mp hb with he | hm
      · rw [he]
        exact h
      · exact le_trans h (hy b hm)
    · rw [if_neg h]
      refine List.Pairwise.cons ?_ (ih ht)
      intro b hb
      rcases List.mem_cons.mp ((sortByPathInsert_perm x t).mem_iff.mp hb) with he | hm
      · rw [he]
        exact le_of_lt (lt_of_not_le h)
      · exact hy b hm

theorem sortByPath_sorted (l : List (PathBuf × String)) :
    List.Pairwise (fun a b : PathBuf × String => pathKey a.1 ≤ pathKey b.1) (sortByPath l) := by
  induction l with
  | nil => simp [sortByPath]
  | cons x t ih => exact sortByPathInsert_sorted ih x

theorem sorted_entries_unique {l1 l2 : List (PathBuf × String)} (hp : List.Perm l1 l2)
    (h1 : keysSortedLt l1)
    (h2 : List.Pairwise (fun a b : PathBuf × String => pathKey a.1 ≤ pathKey b.1) l2)
    (hnd : (l2.map Prod.fst).Nodup) : l1 = l2 := by
  haveI : IsAntisymm (PathBuf × String) (fun a b => pathKey a.1 < pathKey b.1) :=
    ⟨fun a b ha hb => absurd hb (lt_asymm ha)⟩
  refine List.eq_of_perm_of_sorted hp h1 ?_
  have hne : List.Pairwise (fun a b : PathBuf × String => a.1 ≠ b.1) l2 :=
    List.pairwise_map.mp hnd
  exact (h2.and hne).imp (fun h => lt_of_le_of_ne h.1 (pathKey_ne h.2))

/-- Occurrence pairs hashed by a run of compute_digest, in traversal
order. -/
def digestPairs (fs : FS) (paths : List PathBuf) : List (PathBuf × String) :=
  (digestFiles fs paths).map (fun p => (p, fileHashStr fs p))

theorem compute_digest_char (fs : FS) (paths : List PathBuf)
    (hrd : ∀ p ∈ digestFiles fs paths, (fs.read p).isSome) :
    compute_digest fs paths = some (PackageDigest.new
      (hexUpper (sha256 (((sortByPath (digestPairs fs paths)).map (fun e => strBytes e.2)).flatten)))
      ((digestFiles fs paths).foldl (fun m p => m.insert p (fileHashStr fs p)) FileDigestMap.empty)) := by
  unfold compute_digest
  rw [foldlM_processTop, foldlM_maybe_filter]
  rw [show (digestCandidates fs paths).filter isEligibleFile = digestFiles fs paths from rfl]
  rw [foldlM_hash_run fs _ _ hrd]
  simp [digestPairs]

theorem compute_digest_reads (fs : FS) (paths : List PathBuf) (d : PackageDigest)
    (h : compute_digest fs paths = some d) : ∀ p ∈ digestFiles fs paths, (fs.read p).isSome := by
  unfold compute_digest at h
  rw [foldlM_processTop, foldlM_maybe_filter] at h
  rw [show (digestCandidates fs paths).filter isEligibleFile = digestFiles fs paths from rfl] at h
  cases hF : (digestFiles fs paths).foldlM (hash_file fs) ⟨FileDigestMap.empty, []⟩ with
  | none => rw [hF] at h; simp at h
  | some st' => exact foldlM_hash_reads fs _ _ st' hF

theorem compute_digest_entries (fs : FS) (paths : List PathBuf)
    (hnd : (digestFiles fs paths).Nodup) :
    ((digestFiles fs paths).foldl (fun m p => m.insert p (fileHashStr fs p)) FileDigestMap.empty).entries
      = sortByPath (digestPairs fs paths) := by
  have hperm1 : List.Perm
      ((digestFiles fs paths).foldl (fun m p => m.insert p (fileHashStr fs p)) FileDigestMap.empty).entries
      (digestPairs fs paths) := by
    have := foldl_insert_entries_perm fs (digestFiles fs paths) FileDigestMap.empty hnd
      (by simp)
    simpa [digestPairs] using this
  have hkeys : List.Perm ((sortByPath (digestPairs fs paths)).map Prod.fst)
      (digestFiles fs paths) := by
    have h1 := (sortByPath_perm (digestPairs fs paths)).map Prod.fst
    have h2 : (digestPairs fs paths).map Prod.fst = digestFiles fs paths := by
      unfold digestPairs
      rw [List.map_map]
      exact List.map_id _
    exact h2 ▸ h1
  refine sorted_entries_unique (hperm1.trans (sortByPath_perm _).symm)
    ((digestFiles fs paths).foldl (fun m p => m.insert p (fileHashStr fs p)) FileDigestMap.empty).wf
    (sortByPath_sorted _) ?_
  exact hkeys.nodup_iff.mpr hnd

theorem digestPairs_keys (fs : FS) (paths : List PathBuf) :
    (digestPairs fs paths).map Prod.fst = digestFiles fs paths := by
  unfold digestPairs
  rw [List.map_map]
  exact List.map_id _

theorem compute_digest_hash_of_entries (fs : FS) (paths : List PathBuf) (d : PackageDigest)
    (h : compute_digest fs paths = some d) (hnd : (digestFiles fs paths).Nodup) :
    d.package_hash =
      hexUpper (sha256 ((d.file_digests.entries.map (fun e => strBytes e.2)).flatten)) := by
  have hrd := compute_digest_reads fs paths d h
  rw [compute_digest_char fs paths hrd] at h
  replace h := ((Option.some.injEq _ _).mp h).symm
  subst h
  have hent := compute_digest_entries fs paths hnd
  simp only [PackageDigest.new]
  rw [hent]

/-- Filesystem with a single file, the package manifest, with empty
contents; shared by the concrete digest scenarios below. -/
def demoFS : FS :=
  { isFile := fun p => decide (p = [manifestFileName])
    walk := fun _ => []
    read := fun p => if p = [manifestFileName] then some [] else none }

/-- Digest produced by compute_digest on demoFS with the manifest as the
one input path. -/
def demoDigest : PackageDigest :=
  ⟨"F8BBB0CCB2491CA29A3DF03D6F92277A4F3574266507ACD77214D37ECA3F3082",
   ⟨[([manifestFileName], "E3B0C44298FC1C149AFBF4C8996FB92427AE41E4649B934CA495991B7852B855")],
    by decide⟩⟩

/-- Digest produced by compute_digest on demoFS when the manifest path is
passed twice: the per-file map is the same, but the occurrence list holds
the file hash twice, so the package hash covers it twice. -/
def demoDupDigest : PackageDigest :=
  ⟨"3C4103934B1E040BB6B23F1D610B4EF9F2F1166A50A104EADCF77467C004C600",
   ⟨[([manifestFileName], "E3B0C44298FC1C149AFBF4C8996FB92427AE41E4649B934CA495991B7852B855")],
    by decide⟩⟩

/-- C1 (amended with the no-duplicate-encounter hypothesis): when
compute_digest succeeds and no eligible file is encountered twice, the map
stores for each hashed file the uppercase hex SHA-256 of its bytes, the
stored paths are exactly the hashed files, and the package hash is the
uppercase hex SHA-256 of the concatenated per-file hash strings in
ascending path order. -/
theorem compute_digest_stores_sha256_of_files (fs : FS) (paths : List PathBuf)
    (d : PackageDigest) (h : compute_digest fs paths = some d)
    (hnd : (digestFiles fs paths).Nodup) :
    (∀ p b, p ∈ digestFiles fs paths → fs.read p = some b →
        d.file_digests.get p = some (hexUpper (sha256 b))) ∧
    (∀ p, p ∈ digestFiles fs paths ↔ p ∈ d.file_digests.entries.map Prod.fst) ∧
    d.package_hash =
      hexUpper (sha256 ((d.file_digests.entries.map (fun e => strBytes e.2)).flatten)) := by
  have hiii := compute_digest_hash_of_entries fs paths d h hnd
  have hrd := compute_digest_reads fs paths d h
  rw [compute_digest_char fs paths hrd] at h
  replace h := ((Option.some.injEq _ _).mp h).symm
  subst h
  have hent := compute_digest_entries fs paths hnd
  refine ⟨?_, ?_, hiii⟩
  · intro p b hp hb
    show entriesGet _ p = _
    simp only [PackageDigest.new]
    rw [entriesGet_foldl_insert]
    simp [hp, fileHashStr, hb]
  · intro p
    simp only [PackageDigest.new]
    rw [hent, List.Perm.mem_iff ((sortByPath_perm (digestPairs fs paths)).map Prod.fst),
        digestPairs_keys]

/-- C1 witness: the single-manifest scenario instantiates the theorem. -/
theorem compute_digest_stores_sha256_of_files_witness :
    compute_digest demoFS [[manifestFileName]] = some demoDigest ∧
    (digestFiles demoFS [[manifestFileName]]).Nodup ∧
    ((∀ p b, p ∈ digestFiles demoFS [[manifestFileName]] → demoFS.read p = some b →
        demoDigest.file_digests.get p = some (hexUpper (sha256 b))) ∧
    (∀ p, p ∈ digestFiles demoFS [[manifestFileName]] ↔
        p ∈ demoDigest.file_digests.entries.map Prod.fst) ∧
    demoDigest.package_hash =
      hexUpper (sha256 ((demoDigest.file_digests.entries.map (fun e => strBytes e.2)).flatten))) :=
  ⟨by decide, by decide,
   compute_digest_stores_sha256_of_files demoFS [[manifestFileName]] demoDigest
     (by decide) (by decide)⟩

/-- C1 counterexample to the unrestricted claim: passing the same eligible
file twice makes the package hash cover its hash string twice, which is
not the SHA-256 of the concatenation of the stored per-file hash
strings. -/
theorem compute_digest_duplicate_input_counterexample :
    compute_digest demoFS [[manifestFileName], [manifestFileName]] = some demoDupDigest ∧
    demoDupDigest.package_hash ≠
      hexUpper (sha256 ((demoDupDigest.file_digests.entries.map (fun e => strBytes e.2)).flatten)) :=
  ⟨by decide, by decide⟩

/-- C4 counterexample: the from-string producer builds a digest with the
same overall hash as a compute_digest result but an empty per-file map. -/
theorem package_hash_equality_counterexample :
    compute_digest demoFS [[manifestFileName]] = some demoDigest ∧
    (PackageDigest.fromStr demoDigest.package_hash).package_hash = demoDigest.package_hash ∧
    (PackageDigest.fromStr demoDigest.package_hash).file_digests ≠ demoDigest.file_digests :=
  ⟨by decide, rfl, by decide⟩

/-- C4 (amended): among digests produced by compute_digest on runs that
hash no file twice, the per-file map determines the overall hash - equal
file_digests imply equal package_hash.  The converse stated by the claim
fails, as the from-string producer shows. -/
theorem file_digests_determine_package_hash (fs1 fs2 : FS) (paths1 paths2 : List PathBuf)
    (d1 d2 : PackageDigest)
    (h1 : compute_digest fs1 paths1 = some d1) (h2 : compute_digest fs2 paths2 = some d2)
    (hnd1 : (digestFiles fs1 paths1).Nodup) (hnd2 : (digestFiles fs2 paths2).Nodup)
    (heq : d1.file_digests = d2.file_digests) : d1.package_hash = d2.package_hash := by
  rw [compute_digest_hash_of_entries fs1 paths1 d1 h1 hnd1,
      compute_digest_hash_of_entries fs2 paths2 d2 h2 hnd2, heq]

/-- C4 witness: the amended theorem applied to two identical runs. -/
theorem file_digests_determine_package_hash_witness :
    compute_digest demoFS [[manifestFileName]] = some demoDigest ∧
    (digestFiles demoFS [[manifestFileName]]).Nodup ∧
    demoDigest.file_digests = demoDigest.file_digests ∧
    demoDigest.package_hash = demoDigest.package_hash :=
  ⟨by decide, by decide, rfl,
   file_digests_determine_package_hash demoFS demoFS [[manifestFileName]] [[manifestFileName]]
     demoDigest demoDigest (by decide) (by decide) (by decide) (by decide) rfl⟩

/-- C6: compute_digest is deterministic - two filesystems that agree on the
file test, the directory walk, and every file read produce identical
digests for the same path arguments. -/
theorem compute_digest_deterministic (fs1 fs2 : FS) (paths : List PathBuf)
    (hf : fs1.isFile = fs2.isFile) (hw : fs1.walk = fs2.walk) (hr : fs1.read = fs2.read) :
    compute_digest fs1 paths = compute_digest fs2 paths := by
  cases fs1
  cases fs2
  dsimp only at hf hw hr
  subst hf
  subst hw
  subst hr
  rfl

/-- C6 witness: the same filesystem observed twice yields the same
digest. -/
theorem compute_digest_deterministic_witness :
    demoFS.isFile = demoFS.isFile ∧ demoFS.walk = demoFS.walk ∧ demoFS.read = demoFS.read ∧
    compute_digest demoFS [[manifestFileName]] = compute_digest demoFS [[manifestFileName]] :=
  ⟨rfl, rfl, rfl, compute_digest_deterministic demoFS demoFS [[manifestFileName]] rfl rfl rfl⟩

/-- C7: file_changed holds exactly when the path is absent from the digest
or the stored hash differs from the offered one. -/
theorem file_changed_iff (d : PackageDigest) (p : PathBuf) (h : String) :
    d.file_changed p h = true ↔
      d.file_digests.get p = none ∨
        ∃ old, d.file_digests.get p = some old ∧ old ≠ h := by
  unfold PackageDigest.file_changed
  cases hg : d.file_digests.get p with
  | none => simp
  | some old => by_cases he : old = h <;> simp [he]

/-- C8: comparing a digest against itself reports no changed files. -/
theorem get_changed_files_self_empty (d : PackageDigest) :
    d.get_changed_files d = [] := by
  unfold PackageDigest.get_changed_files
  have hfilter1 : d.file_digests.entries.filter (fun e => d.file_changed e.1 e.2) = [] := by
    rw [List.filter_eq_nil_iff]
    intro e he
    obtain ⟨p, v⟩ := e
    have hget : d.file_digests.get p = some v :=
      entriesGet_of_sorted_mem d.file_digests.wf he
    simp [PackageDigest.file_changed, FileDigestMap.get] at hget ⊢
    simp [hget]
  have hfilter2 : (d.file_digests.entries.map Prod.fst).filter
      (fun p => !(d.file_digests.containsKey p)) = [] := by
    rw [List.filter_eq_nil_iff]
    intro p hp
    simp only [FileDigestMap.containsKey, Bool.not_eq_true', Bool.not_eq_false]
    exact List.elem_eq_true_of_mem hp
  rw [hfilter1, hfilter2]
  rfl

/-! ## Mutator command-line options (move-mutator/src/cli.rs) -/

/-- Default output directory constant DEFAULT_OUTPUT_DIR. -/
def DEFAULT_OUTPUT_DIR : String := "mutants_output"

/-- Options of the mutator (struct Options).  Paths are kept as plain
strings here; only presence and defaults matter for the claims. -/
structure Options where
  move_sources : List String
  include_only_files : Option (List String)
  exclude_files : Option (List String)
  out_mutant_dir : Option String
  verify_mutants : Bool
  no_overwrite : Option Bool
  downsample_filter : Option String
  configuration_file : Option String
deriving DecidableEq

/-- Options produced by the derived command-line parser when the user
passes no flags, per the clap attributes: repeated path options are empty,
optional options are absent, and verify_mutants carries the declared
default value false. -/
def Options.parsedNoArgs : Options :=
  { move_sources := []
    include_only_files := none
    exclude_files := none
    out_mutant_dir := none
    verify_mutants := false
    no_overwrite := none
    downsample_filter := none
    configuration_file := none }

/-- Programmatic Default implementation of Options (impl Default for
Options), used when no Options value is supplied at all and, through the
serde default attribute, for fields missing from a configuration file. -/
def Options.default : Options :=
  { move_sources := []
    include_only_files := none
    exclude_files := none
    out_mutant_dir := some DEFAULT_OUTPUT_DIR
    verify_mutants := true
    no_overwrite := none
    downsample_filter := none
    configuration_file := none }

/-- C5 counterexample: no single default mechanism gives both claimed
defaults - the programmatic Default sets verify_mutants to true, and the
command-line parser leaves out_mutant_dir unset. -/
theorem options_default_counterexample :
    Options.default.verify_mutants = true ∧ Options.parsedNoArgs.out_mutant_dir = none :=
  ⟨rfl, rfl⟩

/-- C5 (amended): under command-line parsing with no flags, verify_mutants
defaults to false and out_mutant_dir to unset; under the programmatic
Default implementation, out_mutant_dir defaults to mutants_output but
verify_mutants defaults to true. -/
theorem options_defaults :
    Options.parsedNoArgs.verify_mutants = false ∧
    Options.parsedNoArgs.out_mutant_dir = none ∧
    Options.default.verify_mutants = true ∧
    Options.default.out_mutant_dir = some "mutants_output" :=
  ⟨rfl, rfl, rfl, rfl⟩

/-! ## Module cache (compilation/module_cache.rs)

The cache stores one compiled-module artifact per key, in a memory tier
(a hash map) backed by one file per key in the cache directory.  The
compiled-module serializer of the compiler and the bcs codec of the cache
blobs are external crates; both are modelled below from the spec as
concrete self-delimiting codecs. -/

/-- Little-endian base-255 digits of a natural number, fuelled so that
reduction is structural; the fuel equals the number itself. -/
def natDigits255Aux : Nat → Nat → List Nat
  | 0, _ => []
  | _, 0 => []
  | fuel + 1, n => n % 255 :: natDigits255Aux fuel ((n + 1 - 1) / 255)

/-- Little-endian base-255 digits of a natural number. -/
def natDigits255 (n : Nat) : List Nat := natDigits255Aux n n

/-- Value of a little-endian base-255 digit list. -/
def natFromDigits255 : List Nat → Nat
  | [] => 0
  | d :: t => d + 255 * natFromDigits255 t

/-- Self-delimiting encoding of a natural number: its base-255 digits
followed by the terminator byte 255. -/
def natToBytes (n : Nat) : List Nat := natDigits255 n ++ [255]

/-- Decoder matching natToBytes; returns the value and the remaining
bytes, or none when no terminator is found. -/
def bytesToNat : List Nat → Option (Nat × List Nat)
  | [] => none
  | b :: t =>
    if b = 255 then some (0, t)
    else
      match bytesToNat t with
      | none => none
      | some (n, rest) => some (b + 255 * n, rest)

theorem natFromDigits255_aux (fuel : Nat) : ∀ n, n ≤ fuel →
    natFromDigits255 (natDigits255Aux fuel n) = n := by
  induction fuel with
  | zero => intro n hn; interval_cases n; rfl
  | succ fuel ih =>
    intro n hn
    cases n with
    | zero => rfl
    | succ m =>
      have hdiv : (m + 1) / 255 ≤ fuel := by
        have h1 : (m + 1) / 255 < m + 1 := Nat.div_lt_self (Nat.succ_pos m) (by norm_num)
        omega
      simp only [natDigits255Aux, natFromDigits255]
      rw [show m + 1 + 1 - 1 = m + 1 from rfl, ih _ hdiv]
      exact Nat.mod_add_div (m + 1) 255

theorem natFromDigits255_natDigits255 (n : Nat) :
    natFromDigits255 (natDigits255 n) = n :=
  natFromDigits255_aux n n (le_refl n)

theorem natDigits255_lt (fuel : Nat) : ∀ n d, d ∈ natDigits255Aux fuel n → d < 255 := by
  induction fuel with
  | zero => intro n d hd; simp [natDigits255Aux] at hd
  | succ fuel ih =>
    intro n d hd
    cases n with
    | zero => simp [natDigits255Aux] at hd
    | succ m =>
      simp only [natDigits255Aux] at hd
      rcases List.mem_cons.mp hd with he | hm
      · rw [he]
        exact Nat.mod_lt _ (by norm_num)
      · exact ih _ _ hm

theorem bytesToNat_digits (ds : List Nat) (hds : ∀ d ∈ ds, d < 255) (rest : List Nat) :
    bytesToNat (ds ++ 255 :: rest) = some (natFromDigits255 ds, rest) := by
  induction ds with
  | nil => simp [bytesToNat, natFromDigits255]
  | cons d t ih =>
    have hd : d < 255 := hds d (List.mem_cons_self d t)
    have hne : ¬ d = 255 := Nat.ne_of_lt hd
    have ih2 := ih (fun e he => hds e (List.mem_cons_of_mem d he))
    simp only [List.cons_append, bytesToNat, hne, if_false]
    rw [show List.append t (255 :: rest) = t ++ 255 :: rest from rfl, ih2]
    rfl

theorem bytesToNat_natToBytes (n : Nat) (rest : List Nat) :
    bytesToNat (natToBytes n ++ rest) = some (n, rest) := by
  unfold natToBytes natDigits255
  rw [List.append_assoc, List.singleton_append,
    bytesToNat_digits _ (fun d hd => natDigits255_lt n n d hd),
    natFromDigits255_aux n n (le_refl n)]

/-- Decoder of a fixed count of encoded naturals. -/
def decodeNats : Nat → List Nat → Option (List Nat × List Nat)
  | 0, l => some ([], l)
  | k + 1, l =>
    match bytesToNat l with
    | none => none
    | some (n, rest) =>
      match decodeNats k rest with
      | none => none
      | some (ns, rest2) => some (n :: ns, rest2)

theorem decodeNats_encode (ns : List Nat) (rest : List Nat) :
    decodeNats ns.length (ns.flatMap natToBytes ++ rest) = some (ns, rest) := by
  induction ns generalizing rest with
  | nil => rfl
  | cons n t ih =>
    simp only [List.flatMap_cons, List.length_cons, decodeNats, List.append_assoc,
      bytesToNat_natToBytes, ih]

/-- Encoding of a string: its length, then each character code. -/
def encodeStringB (s : String) : List Nat :=
  natToBytes s.data.length ++ (s.data.map Char.toNat).flatMap natToBytes

/-- Decoder matching encodeStringB. -/
def decodeStringB (l : List Nat) : Option (String × List Nat) :=
  match bytesToNat l with
  | none => none
  | some (len, rest) =>
    match decodeNats len rest with
    | none => none
    | some (ns, rest2) => some (String.mk (ns.map Char.ofNat), rest2)

theorem decodeStringB_encode (s : String) (rest : List Nat) :
    decodeStringB (encodeStringB s ++ rest) = some (s, rest) := by
  obtain ⟨data⟩ := s
  unfold decodeStringB encodeStringB
  rw [List.append_assoc, bytesToNat_natToBytes]
  rw [show (String.mk data).data = data from rfl,
    show data.length = (data.map Char.toNat).length from (List.length_map _ _).symm]
  dsimp only
  rw [decodeNats_encode]
  dsimp only
  rw [List.map_map, show data.map (Char.ofNat ∘ Char.toNat) = data.map id from
    List.map_congr_left (fun c _ => Char.ofNat_toNat c), List.map_id]

/-- Modelled from the spec: the compiler's CompiledModule, reduced to its
self-module id and the remaining module content; the move-binary-format
crate that defines the real type is outside this tree. -/
structure CompiledModule where
  self_id : String
  body : List Nat
deriving DecidableEq

/-- Modelled from the spec: the module serializer invoked by
CachedModule::new; the blob round-trips losslessly through the
deserializer. -/
def CompiledModule.serialize (m : CompiledModule) : List Nat :=
  encodeStringB m.self_id ++ m.body

/-- Modelled from the spec: the module deserializer invoked by
CachedModule::to_compiled_module. -/
def CompiledModule.deserialize (l : List Nat) : Option CompiledModule :=
  match decodeStringB l with
  | none => none
  | some (s, rest) => some ⟨s, rest⟩

theorem CompiledModule.deserialize_serialize (m : CompiledModule) :
    CompiledModule.deserialize m.serialize = some m := by
  obtain ⟨sid, body⟩ := m
  unfold CompiledModule.deserialize CompiledModule.serialize
  rw [decodeStringB_encode]

/-- Cached compiled module (struct CachedModule): the serialized bytecode
blob, the originating source path, and the insertion timestamp in seconds
since the epoch. -/
structure CachedModule where
  bytecode_bytes : List Nat
  source_path : PathBuf
  cache_timestamp : Nat
deriving DecidableEq

/-- Constructor CachedModule::new: serialize the module and stamp the
current time, which is passed explicitly here. -/
def CachedModule.new (module : CompiledModule) (source_path : PathBuf) (now : Nat) :
    CachedModule :=
  ⟨module.serialize, source_path, now⟩

/-- Method CachedModule::to_compiled_module: deserialize the stored
bytecode. -/
def CachedModule.to_compiled_module (cm : CachedModule) : Option CompiledModule :=
  CompiledModule.deserialize cm.bytecode_bytes

/-- Decoder of a fixed count of encoded strings. -/
def decodeStringsB : Nat → List Nat → Option (List String × List Nat)
  | 0, l => some ([], l)
  | k + 1, l =>
    match decodeStringB l with
    | none => none
    | some (s, rest) =>
      match decodeStringsB k rest with
      | none => none
      | some (ss, rest2) => some (s :: ss, rest2)

/-- Encoding of a path as its component count and components. -/
def encodePathB (p : PathBuf) : List Nat :=
  natToBytes p.length ++ p.flatMap encodeStringB

/-- Taking an exact number of bytes, failing when too few remain. -/
def takeBytes (k : Nat) (l : List Nat) : Option (List Nat × List Nat) :=
  if k ≤ l.length then some (l.take k, l.drop k) else none

/-- Modelled from the spec: the bcs serialization of a CachedModule
written to the cache file by insert; the bcs crate is outside this
tree. -/
def cachedModuleToBytes (cm : CachedModule) : List Nat :=
  natToBytes cm.bytecode_bytes.length ++ cm.bytecode_bytes ++
  encodePathB cm.source_path ++ natToBytes cm.cache_timestamp

/-- Modelled from the spec: the bcs deserialization attempted by get on
the bytes of a cache file; any parse failure, including trailing garbage,
yields none. -/
def cachedModuleFromBytes (l : List Nat) : Option CachedModule :=
  match bytesToNat l with
  | none => none
  | some (blen, r1) =>
    match takeBytes blen r1 with
    | none => none
    | some (bytes, r2) =>
      match bytesToNat r2 with
      | none => none
      | some (plen, r3) =>
        match decodeStringsB plen r3 with
        | none => none
        | some (comps, r4) =>
          match bytesToNat r4 with
          | none => none
          | some (ts, r5) =>
            match r5 with
            | [] => some ⟨bytes, comps, ts⟩
            | _ => none

/-- Cache key (struct CacheKey): source file hash plus the test and dev
mode flags. -/
structure CacheKey where
  file_hash : String
  test_mode : Bool
  dev_mode : Bool
deriving DecidableEq

/-- Constructor CacheKey::new. -/
def CacheKey.new (file_hash : String) (test_mode dev_mode : Bool) : CacheKey :=
  ⟨file_hash, test_mode, dev_mode⟩

/-- Stem of the cache filename, hash_testX_devY. -/
def CacheKey.fileStem (k : CacheKey) : String :=
  k.file_hash ++ "_test" ++ (if k.test_mode then "1" else "0")
    ++ "_dev" ++ (if k.dev_mode then "1" else "0")

/-- Method CacheKey::cache_filename: the deterministic filename of the
cache entry. -/
def CacheKey.cache_filename (k : CacheKey) : String := k.fileStem ++ ".bin"

/-- Temporary sibling path used by the atomic write of insert; the
with_extension call swaps the final bin for tmp. -/
def CacheKey.tmp_filename (k : CacheKey) : String := k.fileStem ++ ".tmp"

/-- Association-list lookup keyed by decidable equality; the model of the
std HashMap lookup and of reading a directory entry by name. -/
def Assoc.lookup {κ ν : Type} [DecidableEq κ] : List (κ × ν) → κ → Option ν
  | [], _ => none
  | (k, v) :: t, q => if q = k then some v else Assoc.lookup t q

/-- Removal of a key from an association list. -/
def Assoc.erase {κ ν : Type} [DecidableEq κ] (l : List (κ × ν)) (q : κ) : List (κ × ν) :=
  l.filter (fun e => decide (e.1 ≠ q))

/-- Insert-or-replace into an association list; the model of the std
HashMap insert and of creating or overwriting a file. -/
def Assoc.insertRep {κ ν : Type} [DecidableEq κ] (l : List (κ × ν)) (q : κ) (v : ν) :
    List (κ × ν) :=
  (q, v) :: Assoc.erase l q

theorem Assoc.lookup_insertRep_self {κ ν : Type} [DecidableEq κ]
    (l : List (κ × ν)) (q : κ) (v : ν) : Assoc.lookup (Assoc.insertRep l q v) q = some v := by
  simp [Assoc.insertRep, Assoc.lookup]

theorem Assoc.erase_of_lookup_none {κ ν : Type} [DecidableEq κ]
    {l : List (κ × ν)} {q : κ} (h : Assoc.lookup l q = none) : Assoc.erase l q = l := by
  induction l with
  | nil => rfl
  | cons a t ih =>
    obtain ⟨k, v⟩ := a
    by_cases hq : q = k
    · simp [Assoc.lookup, hq] at h
    · have hk : ¬ k = q := fun he => hq (Eq.symm he)
      simp only [Assoc.lookup, hq, if_false] at h
      simp only [Assoc.erase, List.filter_cons]
      rw [show (decide ((k, v).1 ≠ q)) = true from by simp [hk]]
      simp only [if_true]
      rw [show List.filter (fun e => decide (e.1 ≠ q)) t = Assoc.erase t q from rfl, ih h]

theorem Assoc.length_insertRep_of_none {κ ν : Type} [DecidableEq κ]
    {l : List (κ × ν)} {q : κ} (h : Assoc.lookup l q = none) (v : ν) :
    (Assoc.insertRep l q v).length = l.length + 1 := by
  rw [Assoc.insertRep, List.length_cons, Assoc.erase_of_lookup_none h]

/-- Disk tier: the contents of the cache directory, one entry per file
name. -/
abbrev Disk := List (String × List Nat)

/-- Module cache (struct ModuleCache): the cache directory and the
per-process memory tier. -/
structure ModuleCache where
  cache_dir : PathBuf
  memory_cache : List (CacheKey × CachedModule)

/-- Constructor ModuleCache::with_cache_dir: an empty memory tier over the
given directory (the directory itself is created on disk). -/
def ModuleCache.with_cache_dir (dir : PathBuf) : ModuleCache := ⟨dir, []⟩

/-- Method ModuleCache::get: memory tier first; on miss read the cache
file, treat a missing file or an undecodable one as a miss, and promote a
decoded entry into the memory tier.  The disk is returned unchanged -
get performs no writes. -/
def ModuleCache.get (c : ModuleCache) (disk : Disk) (k : CacheKey) :
    Option CachedModule × ModuleCache × Disk :=
  match Assoc.lookup c.memory_cache k with
  | some cached => (some cached, c, disk)
  | none =>
    match Assoc.lookup disk k.cache_filename with
    | none => (none, c, disk)
    | some bytes =>
      match cachedModuleFromBytes bytes with
      | none => (none, c, disk)
      | some cached =>
        (some cached, ⟨c.cache_dir, Assoc.insertRep c.memory_cache k cached⟩, disk)

/-- Outcome of the fallible steps of insert, supplied by the environment:
serialization, the temporary-file write, and the rename can each fail. -/
inductive InsertIo where
  | serFail
  | writeFail
  | renameFail
  | ok
deriving DecidableEq

/-- Result of insert: success or the failing step. -/
inductive InsertResult where
  | ok
  | serError
  | writeError
  | renameError
deriving DecidableEq

/-- Method ModuleCache::insert: store into the memory tier first, then
serialize and persist to disk by writing a temporary sibling file and
renaming it into place; each fallible step reports an error after the
memory tier has already been updated. -/
def ModuleCache.insert (c : ModuleCache) (disk : Disk) (k : CacheKey) (m : CachedModule)
    (io : InsertIo) : ModuleCache × Disk × InsertResult :=
  let c1 : ModuleCache := ⟨c.cache_dir, Assoc.insertRep c.memory_cache k m⟩
  match io with
  | .serFail => (c1, disk, .serError)
  | .writeFail => (c1, disk, .writeError)
  | .renameFail =>
    (c1, Assoc.insertRep disk k.tmp_filename (cachedModuleToBytes m), .renameError)
  | .ok =>
    let bytes := cachedModuleToBytes m
    let d1 := Assoc.insertRep disk k.tmp_filename bytes
    let d2 := Assoc.insertRep (Assoc.erase d1 k.tmp_filename) k.cache_filename bytes
    (c1, d2, .ok)

/-- Cache statistics (struct CacheStats). -/
structure CacheStats where
  memory_entries : Nat
  disk_entries : Nat
  cache_dir : PathBuf
deriving DecidableEq

/-- Method ModuleCache::stats: memory entry count, raw directory entry
count, and the cache directory. -/
def ModuleCache.stats (c : ModuleCache) (disk : Disk) : CacheStats :=
  ⟨c.memory_cache.length, disk.length, c.cache_dir⟩

/-- Fresh cache over a demo directory, shared by the cache scenarios. -/
def cacheDemo : ModuleCache := ModuleCache.with_cache_dir ["cache"]

/-- Key of the cache-miss scenario. -/
def cacheMissKey : CacheKey := CacheKey.new "nonexistent" false false

/-- Key of the round-trip scenario. -/
def cacheDemoKey : CacheKey := CacheKey.new "abcd1234" true true

/-- Module of the round-trip scenario. -/
def cacheDemoModule : CompiledModule := ⟨"TestModule", [7]⟩

/-- Cached entry of the round-trip scenario. -/
def cacheDemoCached : CachedModule := CachedModule.new cacheDemoModule ["test.move"] 99

/-- Disk holding the round-trip entry as its serialized blob. -/
def cacheDemoDisk : Disk := [(cacheDemoKey.cache_filename, cachedModuleToBytes cacheDemoCached)]

/-- C2: inserting a freshly built cached module and then getting the same
key returns a cached value whose source_path equals the inserted one and
whose bytecode deserializes to a module with the same self-module id,
whatever the outcome of the disk write. -/
theorem insert_then_get_roundtrip (c : ModuleCache) (disk : Disk) (k : CacheKey)
    (module : CompiledModule) (source_path : PathBuf) (now : Nat) (io : InsertIo) :
    ∃ v : CachedModule,
      (((c.insert disk k (CachedModule.new module source_path now) io).1).get
        ((c.insert disk k (CachedModule.new module source_path now) io).2.1) k).1 = some v ∧
      v.source_path = source_path ∧
      ∃ m2, v.to_compiled_module = some m2 ∧ m2.self_id = module.self_id := by
  refine ⟨CachedModule.new module source_path now, ?_, rfl, module, ?_, rfl⟩
  · cases io <;>
      simp [ModuleCache.insert, ModuleCache.get, Assoc.lookup_insertRep_self]
  · show CompiledModule.deserialize (CompiledModule.serialize module) = some module
    exact CompiledModule.deserialize_serialize module

/-- C3: with the key absent from the memory tier, get treats a missing
cache file as a miss, and treats an undecodable cache file as a miss too,
leaving both the memory tier and the disk (including the garbage file)
untouched. -/
theorem get_miss_on_missing_or_garbage (c : ModuleCache) (disk : Disk) (k : CacheKey)
    (hmem : Assoc.lookup c.memory_cache k = none) :
    (Assoc.lookup disk k.cache_filename = none → c.get disk k = (none, c, disk)) ∧
    (∀ bytes, Assoc.lookup disk k.cache_filename = some bytes →
      cachedModuleFromBytes bytes = none → c.get disk k = (none, c, disk)) := by
  constructor
  · intro h
    unfold ModuleCache.get
    rw [hmem, h]
  · intro bytes h1 h2
    unfold ModuleCache.get
    rw [hmem, h1]
    dsimp only
    rw [h2]

/-- C3 witness: the nonexistent key misses on an empty disk, and misses on
a one-byte garbage file without deleting it. -/
theorem get_miss_on_missing_or_garbage_witness :
    Assoc.lookup cacheDemo.memory_cache cacheMissKey = none ∧
    cacheDemo.get [] cacheMissKey = (none, cacheDemo, []) ∧
    cacheDemo.get [(cacheMissKey.cache_filename, [0])] cacheMissKey
      = (none, cacheDemo, [(cacheMissKey.cache_filename, [0])]) :=
  ⟨rfl,
   (get_miss_on_missing_or_garbage cacheDemo [] cacheMissKey rfl).1 rfl,
   (get_miss_on_missing_or_garbage cacheDemo [(cacheMissKey.cache_filename, [0])]
     cacheMissKey rfl).2 [0] rfl rfl⟩

/-- C9: insert updates the memory tier before any disk step, so after an
insert that reports an error of any kind a get of the same key in the
same process still returns the inserted module from the memory tier. -/
theorem insert_error_keeps_memory_entry (c : ModuleCache) (disk : Disk) (k : CacheKey)
    (m : CachedModule) (io : InsertIo)
    (herr : (c.insert disk k m io).2.2 ≠ InsertResult.ok) :
    (((c.insert disk k m io).1).get ((c.insert disk k m io).2.1) k).1 = some m := by
  cases io <;> simp [ModuleCache.insert, ModuleCache.get, Assoc.lookup_insertRep_self]

/-- C9 witness: a failing temporary-file write still leaves the entry
readable from memory. -/
theorem insert_error_keeps_memory_entry_witness :
    (cacheDemo.insert [] cacheDemoKey cacheDemoCached InsertIo.writeFail).2.2
      ≠ InsertResult.ok ∧
    (((cacheDemo.insert [] cacheDemoKey cacheDemoCached InsertIo.writeFail).1).get
      ((cacheDemo.insert [] cacheDemoKey cacheDemoCached InsertIo.writeFail).2.1)
      cacheDemoKey).1 = some cacheDemoCached :=
  ⟨by decide,
   insert_error_keeps_memory_entry cacheDemo [] cacheDemoKey cacheDemoCached
     InsertIo.writeFail (by decide)⟩

/-- C10: a get that misses the memory tier but reads and decodes the cache
file returns the decoded entry, promotes it into the memory tier so the
memory entry count of stats grows by one, and a second get of the same key
is served from memory with no further state change. -/
theorem get_disk_hit_promotes_to_memory (c : ModuleCache) (disk : Disk) (k : CacheKey)
    (bytes : List Nat) (cm : CachedModule)
    (hmem : Assoc.lookup c.memory_cache k = none)
    (hdisk : Assoc.lookup disk k.cache_filename = some bytes)
    (hdec : cachedModuleFromBytes bytes = some cm) :
    c.get disk k = (some cm, ⟨c.cache_dir, Assoc.insertRep c.memory_cache k cm⟩, disk) ∧
    ((⟨c.cache_dir, Assoc.insertRep c.memory_cache k cm⟩ : ModuleCache).stats disk).memory_entries
      = (c.stats disk).memory_entries + 1 ∧
    (⟨c.cache_dir, Assoc.insertRep c.memory_cache k cm⟩ : ModuleCache).get disk k
      = (some cm, ⟨c.cache_dir, Assoc.insertRep c.memory_cache k cm⟩, disk) := by
  refine ⟨?_, ?_, ?_⟩
  · unfold ModuleCache.get
    rw [hmem, hdisk]
    dsimp only
    rw [hdec]
  · simp [ModuleCache.stats, Assoc.length_insertRep_of_none hmem]
  · unfold ModuleCache.get
    rw [show Assoc.lookup (Assoc.insertRep c.memory_cache k cm) k = some cm from
      Assoc.lookup_insertRep_self _ _ _]

/-- C10 witness: the round-trip entry on disk is promoted into memory by a
first get and served from memory by a second. -/
theorem get_disk_hit_promotes_to_memory_witness :
    Assoc.lookup cacheDemo.memory_cache cacheDemoKey = none ∧
    Assoc.lookup cacheDemoDisk cacheDemoKey.cache_filename
      = some (cachedModuleToBytes cacheDemoCached) ∧
    cachedModuleFromBytes (cachedModuleToBytes cacheDemoCached) = some cacheDemoCached ∧
    (cacheDemo.get cacheDemoDisk cacheDemoKey
        = (some cacheDemoCached,
           ⟨cacheDemo.cache_dir, Assoc.insertRep cacheDemo.memory_cache cacheDemoKey cacheDemoCached⟩,
           cacheDemoDisk) ∧
     ((⟨cacheDemo.cache_dir, Assoc.insertRep cacheDemo.memory_cache cacheDemoKey cacheDemoCached⟩ :
        ModuleCache).stats cacheDemoDisk).memory_entries
       = (cacheDemo.stats cacheDemoDisk).memory_entries + 1 ∧
     (⟨cacheDemo.cache_dir, Assoc.insertRep cacheDemo.memory_cache cacheDemoKey cacheDemoCached⟩ :
        ModuleCache).get cacheDemoDisk cacheDemoKey
       = (some cacheDemoCached,
          ⟨cacheDemo.cache_dir, Assoc.insertRep cacheDemo.memory_cache cacheDemoKey cacheDemoCached⟩,
          cacheDemoDisk)) :=
  ⟨rfl, by decide, by decide,
   get_disk_hit_promotes_to_memory cacheDemo cacheDemoDisk cacheDemoKey
     (cachedModuleToBytes cacheDemoCached) cacheDemoCached rfl (by decide) (by decide)⟩
